import Mathlib

/-!
Verification development for the dutree disk-usage analyser
(src/lib.rs of the dutree repository).

The file-system is modelled as an inductive tree `FSNode`; traversal-time
facts that the Rust code obtains through `std::fs` calls (lstat metadata,
directory listings, symlink target resolution) are fields of the node.
Machine integers (`u64`) are modelled as `Nat`: every quantity involved is a
size or a count and the program only adds, compares and divides them, so no
wrap-around behaviour is reachable for realistic inputs.
Output to stderr (`eprintln!`) is modelled as an accumulated list of
messages returned next to each result.
-/

namespace Dutree

/-- A file-system node as seen by the traversal.  `sizeL` is the logical
size (`st_size`), `sizeP` the physical one (`st_blocks * 512`), matching
the two branches of `try_bytes_from_path` in src/lib.rs.
`dir` carries `readErr = some kind` when `read_dir` would fail with that
error kind; `badMeta` is a node whose `symlink_metadata` call fails.
A `symlink` is never followed (the source's `try_read_dir` refuses
symlinks), so it needs no children; the model covers links whose target is
not a directory, hence `isDir`/`isFile` below treat a link as a non-directory
whose `is_file` status is its target's existence. -/
inductive FSNode where
  | file    (name : String) (sizeL sizeP : Nat) (mode : Nat)
  | dir     (name : String) (sizeL sizeP : Nat) (mode : Nat)
            (readErr : Option String) (children : List FSNode)
  | symlink (name : String) (sizeL sizeP : Nat) (linkOk : Bool) (targetExists : Bool)
  | badMeta (name : String) (errKind : String)

/-- The display name of a node (`file_name_from_path` in the source). -/
def FSNode.name : FSNode → String
  | .file n .. => n
  | .dir n .. => n
  | .symlink n .. => n
  | .badMeta n .. => n

/-- Model of `path.is_dir()`. -/
def FSNode.isDir : FSNode → Bool
  | .dir .. => true
  | _ => false

/-- Model of `path.is_file()`:  true for regular files and for symlinks
whose (non-directory) target exists. -/
def FSNode.isFile : FSNode → Bool
  | .file .. => true
  | .symlink _ _ _ _ tgt => tgt
  | _ => false

/-- Whether `path.symlink_metadata()` succeeds. -/
def FSNode.metaOk : FSNode → Bool
  | .badMeta .. => false
  | _ => true

/-- The `st_mode` permission bits from the lstat metadata.  A symlink's own
mode is `0o777` (the usual `lrwxrwxrwx`). -/
def FSNode.mode : FSNode → Nat
  | .file _ _ _ m => m
  | .dir _ _ _ m _ _ => m
  | .symlink .. => 0o777
  | .badMeta .. => 0

/-- Model of `try_is_symlink` (src/lib.rs line 203). -/
def try_is_symlink : FSNode → Bool
  | .symlink .. => true
  | _ => false

/-- The message emitted by `print_io_error` (src/lib.rs line 258):
`Couldn't read <name> (<error-kind>)`, where the kind string is the Rust
`Debug` rendering of `io::ErrorKind`. -/
def ioErrMsg (name errKind : String) : String :=
  "Couldn't read " ++ name ++ " (" ++ errKind ++ ")"

/-- Model of `try_bytes_from_path` (src/lib.rs lines 232-244): lstat the
node, pick the physical or logical size by `usage_flag`; on a metadata
error report it and yield 0.  The second component is the stderr output. -/
def try_bytes_from_path (node : FSNode) (usageFlag : Bool) : Nat × List String :=
  match node with
  | .badMeta n k => (0, [ioErrMsg n k])
  | .file _ l p _ => (if usageFlag then p else l, [])
  | .dir _ l p _ _ _ => (if usageFlag then p else l, [])
  | .symlink _ l p _ _ => (if usageFlag then p else l, [])

/-- Model of `try_read_dir` (src/lib.rs lines 221-230): never follows
symlinks; on a read error reports it and yields no listing.  The source
only invokes it behind `is_dir` guards, so the non-directory branches are
unreachable there. -/
def try_read_dir (node : FSNode) : Option (List FSNode) × List String :=
  match node with
  | .dir n _ _ _ (some k) _ => (none, [ioErrMsg n k])
  | .dir _ _ _ _ none cs => (some cs, [])
  | _ => (none, [])

mutual

/-- Model of `get_bytes` (src/lib.rs lines 476-490): the full recursive
total of a subtree, self size plus all descendants, with no filtering and
no depth limit.  Directory cases are matched structurally (the source's
`path.is_dir()` test). -/
def get_bytes (node : FSNode) (usageFlag : Bool) : Nat × List String :=
  match node with
  | .dir n l p m re cs =>
    let self := try_bytes_from_path (.dir n l p m re cs) usageFlag
    match re with
    | none =>
      let rest := get_bytes_list cs usageFlag
      (self.1 + rest.1, self.2 ++ rest.2)
    | some k => (self.1, self.2 ++ [ioErrMsg n k])
  | other => try_bytes_from_path other usageFlag

/-- The loop over a directory listing inside `get_bytes`. -/
def get_bytes_list (cs : List FSNode) (usageFlag : Bool) : Nat × List String :=
  match cs with
  | [] => (0, [])
  | c :: rest =>
    let b := get_bytes c usageFlag
    let r := get_bytes_list rest usageFlag
    (b.1 + r.1, b.2 ++ r.2)

end

/-- The configuration handed to the core by the CLI layer
(struct `Config`, src/lib.rs lines 82-94; `paths` is passed separately
to `run` in the model since it denotes file-system roots). -/
structure Config where
  depth : Nat
  depthFlag : Bool
  bytesFlag : Bool
  usageFlag : Bool
  hiddnFlag : Bool
  asciiFlag : Bool
  noDirFlg : Bool
  aggr : Nat
  exclude : List String
  colorDict : List (String × String)

/-- One node of the result tree (struct `Entry`, src/lib.rs lines 74-80). -/
inductive Entry where
  | mk (name : String) (bytes : Nat) (color : Option String) (last : Bool)
       (entries : Option (List Entry))

def Entry.name : Entry → String
  | .mk n _ _ _ _ => n

def Entry.bytes : Entry → Nat
  | .mk _ b _ _ _ => b

def Entry.color : Entry → Option String
  | .mk _ _ c _ _ => c

def Entry.last : Entry → Bool
  | .mk _ _ _ l _ => l

def Entry.entries : Entry → Option (List Entry)
  | .mk _ _ _ _ e => e

/-- The post-hoc `vec[len-1].last = true` mutation, as a field update. -/
def Entry.setLast (e : Entry) (b : Bool) : Entry :=
  match e with
  | .mk n by2 c _ es => .mk n by2 c b es

/-- Sum of the `bytes` fields of a sibling list (the accumulation loop of
src/lib.rs lines 312-315). -/
def sumBytes (es : List Entry) : Nat :=
  (es.map Entry.bytes).sum

/-- The comparator `|a, b| b.bytes.cmp(&a.bytes)` of src/lib.rs line 290,
as the relation it sorts by: descending `bytes`. -/
def byBytesDesc (a b : Entry) : Prop :=
  b.bytes ≤ a.bytes

instance : DecidableRel byBytesDesc := fun a b => by
  unfold byBytesDesc; infer_instance

/-- Model of `vec.sort_unstable_by(|a, b| b.bytes.cmp(&a.bytes))`
(src/lib.rs line 290): a sort by descending `bytes`.  The Rust sort leaves
the relative order of equal-sized entries unspecified; the model fixes one
such order (insertion sort), which no verified property depends on. -/
def sortByBytesDesc (l : List Entry) : List Entry :=
  List.insertionSort byBytesDesc l

/-- Set `last := true` on the final element of a sibling list
(src/lib.rs lines 301-304 and 585-588). -/
def markLast : List Entry → List Entry
  | [] => []
  | [e] => [e.setLast true]
  | e :: e2 :: es => e :: markLast (e2 :: es)

/-- The synthetic aggregate node (src/lib.rs lines 292-298). -/
def aggregatedEntry (b : Nat) : Entry :=
  .mk "<aggregated>" b none true none

/-- Association-list lookup modelling `HashMap::get` on the color table. -/
def lookupColor (dict : List (String × String)) (k : String) : Option String :=
  match dict.find? (fun p => p.1 == k) with
  | some p => some p.2
  | none => none

/-- Model of `key.trim_start_matches("*.")`: repeatedly strip a leading
`*.`. -/
def stripStarDotAux : List Char → List Char
  | '*' :: '.' :: rest => stripStarDotAux rest
  | l => l

def stripStarDot (s : String) : String :=
  String.mk (stripStarDotAux s.data)

/-- Whether a color-table key starts with the two characters `*.`
(the source's `&key[..2] == "*."`). -/
def isGlobKey (s : String) : Bool :=
  match s.data with
  | '*' :: '.' :: _ => true
  | _ => false

/-- The extension-keyed lookup loop of `color_from_path`
(src/lib.rs lines 528-536).  The Rust iterates the `HashMap` in
unspecified order; the model uses the association-list order. -/
def extColor (dict : List (String × String)) (ext : String) : Option String :=
  match dict.find? (fun p => isGlobKey p.1 && stripStarDot p.1 == ext) with
  | some p => some p.2
  | none => none

/-- Model of `Path::extension()` applied to a file name: the portion after
the final `.`, unless there is no `.` or the only `.` is the leading one. -/
def pathExtension (name : String) : Option String :=
  match name.splitOn "." with
  | [] => none
  | [_] => none
  | ["", _] => none
  | parts => some (parts.getLastD "")

/-- The non-symlink sections of `color_from_path`
(src/lib.rs lines 506-547): metadata/mode classification, then extension
lookup, then the plain-file fallback, then the special-file fallback. -/
def colorCommon (node : FSNode) (dict : List (String × String)) : Option String :=
  let modeRes : Option String :=
    if node.metaOk then
      let mode := node.mode
      let dirRes : Option String :=
        if node.isDir then
          match (if mode &&& 0o002 ≠ 0 then lookupColor dict "ow" else none) with
          | some c => some c
          | none => lookupColor dict "di"
        else none
      match dirRes with
      | some c => some c
      | none => if mode &&& 0o111 ≠ 0 then lookupColor dict "ex" else none
    else none
  match modeRes with
  | some c => some c
  | none =>
    let extRes : Option String :=
      match pathExtension node.name with
      | some ext => extColor dict ext
      | none => none
    match extRes with
    | some c => some c
    | none =>
      if node.isFile then lookupColor dict "fi"
      else lookupColor dict "bd"

/-- Model of `color_from_path` (src/lib.rs lines 492-548).  For a symlink:
if the target link can be read and exists, try the `ln` class; failing
that (and for dangling links) fall through to the `or` class; if neither
applies, continue with the common classification. -/
def colorFromPath (node : FSNode) (dict : List (String × String)) : Option String :=
  let symRes : Option String :=
    match node with
    | .symlink _ _ _ linkOk targetExists =>
      if linkOk && targetExists then
        match lookupColor dict "ln" with
        | some c => some c
        | none => lookupColor dict "or"
      else lookupColor dict "or"
    | _ => none
  match symRes with
  | some c => some c
  | none => colorCommon node dict

/-- The internal depth computation of `Entry::new`
(src/lib.rs line 267): `if cfg.depth_flag { depth - 1 } else { 1 }`. -/
def internalDepth (cfg : Config) (depth : Nat) : Nat :=
  if cfg.depthFlag then depth - 1 else 1

mutual

/-- Model of `Entry::new` (src/lib.rs lines 263-325).  Returns the built
entry together with the stderr output, in emission order.  The
`readErr = some` branch inlines the failing `try_read_dir`: the error is
reported once there, `entries` becomes `None`, and the size falls back to
`get_bytes` (which reports the same failure a second time, as the source
does). -/
def Entry.new (node : FSNode) (cfg : Config) (depth : Nat) : Entry × List String :=
  let name := node.name
  let depth' := internalDepth cfg depth
  match node with
  | .dir dn l p m readErr children =>
    if !cfg.depthFlag || 0 < depth' then
      match readErr with
      | some k =>
        let gb := get_bytes (.dir dn l p m (some k) children) cfg.usageFlag
        let color := if !cfg.asciiFlag then colorFromPath node cfg.colorDict else none
        (Entry.mk name gb.1 color false none, [ioErrMsg dn k] ++ gb.2)
      | none =>
        let built := buildChildren children cfg depth'
        let vec1 := sortByBytesDesc built.1
        let vec2 := if 0 < built.2.1 then vec1 ++ [aggregatedEntry built.2.1] else vec1
        let vec3 := markLast vec2
        let self := try_bytes_from_path node cfg.usageFlag
        let color := if !cfg.asciiFlag then colorFromPath node cfg.colorDict else none
        (Entry.mk name (self.1 + sumBytes vec3) color false (some vec3),
         built.2.2 ++ self.2)
    else
      let gb := get_bytes node cfg.usageFlag
      let color := if !cfg.asciiFlag then colorFromPath node cfg.colorDict else none
      (Entry.mk name gb.1 color false none, gb.2)
  | other =>
    let gb := get_bytes other cfg.usageFlag
    let color := if !cfg.asciiFlag then colorFromPath other cfg.colorDict else none
    (Entry.mk name gb.1 color false none, gb.2)

/-- The per-child loop of `Entry::new` (src/lib.rs lines 273-289):
filters (exclude list, hidden names, files-only), recursive build, and the
aggregation split.  Returns the visible children in directory order, the
aggregate accumulator, and the stderr output. -/
def buildChildren (cs : List FSNode) (cfg : Config) (depth : Nat) :
    List Entry × Nat × List String :=
  match cs with
  | [] => ([], 0, [])
  | c :: rest =>
    let entryName := c.name
    if cfg.exclude.contains entryName then buildChildren rest cfg depth
    else if cfg.hiddnFlag && entryName.startsWith "." then buildChildren rest cfg depth
    else if cfg.noDirFlg && c.isDir then buildChildren rest cfg depth
    else
      let e := Entry.new c cfg depth
      let r := buildChildren rest cfg depth
      if 0 < cfg.aggr && e.1.bytes < cfg.aggr then
        (r.1, e.1.bytes + r.2.1, e.2 ++ r.2.2)
      else
        (e.1 :: r.1, r.2.1, e.2 ++ r.2.2)

end

/-- Model of `run` (src/lib.rs lines 572-599): a single root is built
directly; several roots are wrapped in a sorted synthetic collection. -/
def run (roots : List FSNode) (cfg : Config) : Entry × List String :=
  match roots with
  | [r] => Entry.new r cfg (cfg.depth + 1)
  | rs =>
    let built := rs.map (fun r => Entry.new r cfg (cfg.depth + 1))
    let entries := built.map Prod.fst
    let sorted := markLast (sortByBytesDesc entries)
    (Entry.mk "<collection>" (sumBytes entries) none false (some sorted),
     (built.map Prod.snd).flatten)

/-! ### SizeFormatter -/

/-- Round `num / den` to the nearest integer, ties to even (the rounding
used by Rust's fixed-precision float formatting on exactly representable
values). -/
def roundHalfEven (num den : Nat) : Nat :=
  let q := num / den
  let r := num % den
  if 2 * r < den then q
  else if den < 2 * r then q + 1
  else if q % 2 = 0 then q else q + 1

/-- Two-decimal rendering of `num / den`, as produced by
`format!("\x7b:.2\x7d", v)` on an `f32` value `v`.  The model computes the
exact rational; it agrees with the Rust output whenever the quotient is
exactly representable in `f32` (in particular for every value whose
hundredths are exact, such as the division of a small byte count by a
power of 1024). -/
def fmtFixed2 (num den : Nat) : String :=
  let h := roundHalfEven (num * 100) den
  let ip := h / 100
  let fp := h % 100
  toString ip ++ "." ++ (if fp < 10 then "0" ++ toString fp else toString fp)

/-- Model of `fmt_size_str` (src/lib.rs lines 467-474).  Note the first
branch formats the `u64` byte count itself: Rust ignores the `.2`
precision of `\x7b:.2\x7d` for integer types, so that branch renders with
no decimal places. -/
def fmt_size_str (bytes : Nat) (flag : Bool) : String :=
  if bytes < 1024 || flag then toString bytes ++ " B"
  else if bytes < 1024 ^ 2 then fmtFixed2 bytes 1024 ++ " KiB"
  else if bytes < 1024 ^ 3 then fmtFixed2 bytes (1024 ^ 2) ++ " MiB"
  else if bytes < 1024 ^ 4 then fmtFixed2 bytes (1024 ^ 3) ++ " GiB"
  else fmtFixed2 bytes (1024 ^ 4) ++ " TiB"

/-! ### Name truncation (Renderer) -/

/-- A grapheme cluster of an entry name together with its display width,
as delivered by the `unicode_segmentation` and `unicode_width` external
crates (wide characters have width 2, combined clusters are one unit). -/
structure Cluster where
  text : String
  width : Nat
deriving DecidableEq

/-- The truncation loop of `Entry::print_entries`
(src/lib.rs lines 343-352): running width `i`, keep each cluster whose
width still fits the budget.  The loop has no early exit: a cluster that
does not fit is skipped but iteration continues. -/
def truncAux (nameWidth : Nat) : Nat → List Cluster → List Cluster
  | _, [] => []
  | i, c :: cs =>
    if i + c.width ≤ nameWidth then c :: truncAux nameWidth (i + c.width) cs
    else truncAux nameWidth i cs

/-- Truncate an entry name (given as its cluster sequence) to the
available display width. -/
def truncate_name (clusters : List Cluster) (nameWidth : Nat) : List Cluster :=
  truncAux nameWidth 0 clusters

/-- Total display width of a cluster sequence. -/
def clustersWidth (cs : List Cluster) : Nat :=
  (cs.map Cluster.width).sum

/-! ### Bar chart (Renderer) -/

/-- The guarded proportional division used twice in `fmt_bar`
(src/lib.rs lines 434-437 and 448): a zero total yields zero cells. -/
def guardedDiv (part scale total : Nat) : Nat :=
  match total with
  | 0 => 0
  | _ => part * scale / total

/-- The guarded percentage of `fmt_bar` (src/lib.rs lines 458-463):
`last * 100 / parent`, with a zero parent yielding 0. -/
def barPercent (lastBytes parentBytes : Nat) : Nat :=
  match parentBytes with
  | 0 => 0
  | _ => lastBytes * 100 / parentBytes

/-- The shading characters (src/lib.rs line 440). -/
def blockChar (asciiFlag : Bool) : List Char :=
  if asciiFlag then [' ', '#'] else [' ', '░', '▒', '▓', '█']

/-- Right-aligned minimum-width-3 rendering of the percentage
(the `\x7b:3\x7d` format). -/
def padPercent (n : Nat) : String :=
  if n < 10 then "  " ++ toString n
  else if n < 100 then " " ++ toString n
  else toString n

/-- The mutable loop state of `fmt_bar`'s cell loop. -/
structure BarState where
  total : Nat
  part : Nat
  rest : List Nat
  bars : Nat
  pos : Nat
  chr : Nat

/-- One iteration of the `for x in 0..width` loop of `fmt_bar`
(src/lib.rs lines 444-454), before the character push. -/
def barStep (width levels blocksLen : Nat) (x : Nat) (st : BarState) : BarState :=
  if st.pos < x then
    let total' := st.part
    let part' := st.rest.headD 0
    let bars' := guardedDiv part' st.bars total'
    let chr0 := st.chr + 1
    let chr' := if chr0 = levels || blocksLen ≤ chr0 then blocksLen - 1 else chr0
    ⟨total', part', st.rest.tail, bars', width - bars', chr'⟩
  else st

/-- The cell loop of `fmt_bar`: `n` remaining cells, `x` the loop index. -/
def fmtBarChars (width levels : Nat) (blocks : List Char) :
    Nat → Nat → BarState → List Char
  | 0, _, _ => []
  | n + 1, x, st =>
    let st' := barStep width levels blocks.length x st
    blocks.getD st'.chr ' ' :: fmtBarChars width levels blocks n (x + 1) st'

/-- Model of `fmt_bar` (src/lib.rs lines 424-465).  The source discards
the first element of the ancestor chain, then calls `.next().unwrap()`:
with fewer than two chain elements that unwrap (and the trailing
`bytes[bytes.len()-2]` index) would panic, modelled as `none`.  The
`width as u64 - 2 - 5` border arithmetic is truncated at zero here (`Nat`
subtraction); the caller always passes a width that large. -/
def fmt_bar (bytes : List Nat) (maxBytes : Nat) (width0 : Nat)
    (asciiFlag : Bool) : Option String :=
  let width := width0 - 2 - 5
  match (bytes.drop 1).head? with
  | none => none
  | some part0 =>
    let bars0 := guardedDiv part0 width maxBytes
    let blocks := blockChar asciiFlag
    let st0 : BarState := ⟨maxBytes, part0, bytes.drop 2, bars0, width - bars0, 0⟩
    let bar := fmtBarChars width (bytes.length - 1) blocks width 0 st0
    let percent := barPercent (bytes.getD (bytes.length - 1) 0)
                              (bytes.getD (bytes.length - 2) 0)
    some (String.mk ('│' :: bar) ++ "│ " ++ padPercent percent ++ "%")

/-- Argument chains of every `fmt_bar` call made by
`Entry::print_entries` (src/lib.rs lines 327-390): each visible entry
pushes its bytes onto a copy of the ancestor chain; the call (and the
recursion into the entry's own children) happens only when the tree
prefix still fits the name column. -/
def printEntriesBarCalls (entries : List Entry) (openCount : Nat)
    (parentVals : List Nat) (treeNameWidth : Nat) : List (List Nat) :=
  match entries with
  | [] => []
  | Entry.mk _ b _ _ sub :: rest =>
    let chain := parentVals ++ [b]
    let treeWidth := (openCount + 1) * 3
    (if treeWidth ≤ treeNameWidth then
      chain :: (match sub with
        | some es => printEntriesBarCalls es (openCount + 1) chain treeNameWidth
        | none => [])
    else []) ++ printEntriesBarCalls rest openCount parentVals treeNameWidth

/-- Argument chains of every `fmt_bar` call reachable from `Entry::print`
(src/lib.rs lines 392-421): the root's bytes are pushed as the initial
ancestor chain before the recursion starts. -/
def printBarCalls : Entry → Nat → List (List Nat)
  | .mk _ b _ _ (some es), treeNameWidth => printEntriesBarCalls es 0 [b] treeNameWidth
  | .mk _ _ _ _ none, _ => []

/-! ### Basic lemmas about the model -/

@[simp] theorem Entry.name_mk (n : String) (b : Nat) (c : Option String)
    (l : Bool) (es : Option (List Entry)) : (Entry.mk n b c l es).name = n := rfl

@[simp] theorem Entry.bytes_mk (n : String) (b : Nat) (c : Option String)
    (l : Bool) (es : Option (List Entry)) : (Entry.mk n b c l es).bytes = b := rfl

@[simp] theorem Entry.last_mk (n : String) (b : Nat) (c : Option String)
    (l : Bool) (es : Option (List Entry)) : (Entry.mk n b c l es).last = l := rfl

@[simp] theorem Entry.entries_mk (n : String) (b : Nat) (c : Option String)
    (l : Bool) (es : Option (List Entry)) : (Entry.mk n b c l es).entries = es := rfl

@[simp] theorem Entry.setLast_mk (n : String) (b : Nat) (c : Option String)
    (l l' : Bool) (es : Option (List Entry)) :
    (Entry.mk n b c l es).setLast l' = Entry.mk n b c l' es := rfl

@[simp] theorem Entry.bytes_setLast (e : Entry) (b : Bool) :
    (e.setLast b).bytes = e.bytes := by cases e; rfl

@[simp] theorem Entry.last_setLast (e : Entry) (b : Bool) :
    (e.setLast b).last = b := by cases e; rfl

@[simp] theorem Entry.entries_setLast (e : Entry) (b : Bool) :
    (e.setLast b).entries = e.entries := by cases e; rfl

@[simp] theorem markLast_nil : markLast [] = [] := rfl

theorem markLast_concat (l : List Entry) (e : Entry) :
    markLast (l ++ [e]) = l ++ [e.setLast true] := by
  induction l with
  | nil => rfl
  | cons a l ih =>
    cases h : l ++ [e] with
    | nil => exact absurd h (by simp)
    | cons b t =>
      simp only [List.cons_append, h, markLast]
      rw [← h, ih]

theorem markLast_map_bytes (l : List Entry) :
    (markLast l).map Entry.bytes = l.map Entry.bytes := by
  rcases List.eq_nil_or_concat l with rfl | ⟨l', e, rfl⟩
  · rfl
  · simp [markLast_concat]

theorem markLast_dropLast (l : List Entry) :
    (markLast l).dropLast = l.dropLast := by
  rcases List.eq_nil_or_concat l with rfl | ⟨l', e, rfl⟩
  · rfl
  · simp [markLast_concat]

instance : IsTotal Entry byBytesDesc :=
  ⟨fun a b => le_total b.bytes a.bytes⟩

instance : IsTrans Entry byBytesDesc :=
  ⟨fun _ _ _ h1 h2 => le_trans h2 h1⟩

theorem sortByBytesDesc_chain' (l : List Entry) :
    List.Chain' byBytesDesc (sortByBytesDesc l) :=
  (List.sorted_insertionSort byBytesDesc l).chain'

theorem mem_sortByBytesDesc {e : Entry} {l : List Entry} :
    e ∈ sortByBytesDesc l ↔ e ∈ l :=
  (List.perm_insertionSort byBytesDesc l).mem_iff

theorem sumBytes_eq (es : List Entry) : sumBytes es = (es.map Entry.bytes).sum := rfl

/-- Every entry built by `Entry::new` leaves the `last` flag at its
default `false` (the flag is only raised later, on the entry's copy held
inside a parent's sibling list). -/
theorem Entry.new_last (node : FSNode) (cfg : Config) (depth : Nat) :
    ((Entry.new node cfg depth).1).last = false := by
  cases hE : Entry.new node cfg depth with
  | mk fst snd =>
    cases node <;> rw [Entry.new.eq_def] at hE <;> dsimp only at hE <;>
      (try split at hE) <;> (try split at hE) <;>
      simp only [Prod.mk.injEq] at hE <;> simp [← hE.1]

/-! ### C1: directory bytes invariant -/

/-- C1: for every directory entry built by the tree builder that carries a
children sequence, its `bytes` equals the directory's own traversal-time
self size (physical or logical per the configured mode) plus the sum of
the `bytes` of all entries of the children sequence (the synthetic
aggregate child included, since it is an element of that sequence). -/
theorem claim1_dir_bytes_invariant (node : FSNode) (cfg : Config) (depth : Nat)
    (es : List Entry)
    (h : ((Entry.new node cfg depth).1).entries = some es) :
    ((Entry.new node cfg depth).1).bytes
      = (try_bytes_from_path node cfg.usageFlag).1 + (es.map Entry.bytes).sum := by
  cases hE : Entry.new node cfg depth with
  | mk fst snd =>
    rw [hE] at h
    cases node <;> rw [Entry.new.eq_def] at hE <;> dsimp only at hE <;>
      (try split at hE) <;> (try split at hE) <;>
      simp only [Prod.mk.injEq] at hE <;>
      rw [← hE.1] at h <;> simp at h
    all_goals first
      | (exact absurd h (by simp))
      | (subst h; simp [← hE.1, sumBytes_eq])

/-- A minimal configuration: no depth limit, no aggregation, no filters,
ASCII mode (witness/counterexample inputs). -/
def cfg0 : Config := ⟨0, false, false, false, false, true, false, 0, [], []⟩

/-- A directory holding one 5-byte file, with self size 3. -/
def wNode1 : FSNode := .dir "d" 3 3 0 none [.file "a" 5 5 0]

theorem wNode1_eval :
    Entry.new wNode1 cfg0 1
      = (Entry.mk "d" 8 none false (some [Entry.mk "a" 5 none true none]), []) := by
  simp [wNode1, cfg0, Entry.new, buildChildren, get_bytes, try_bytes_from_path,
    sortByBytesDesc, List.insertionSort, List.orderedInsert, markLast, sumBytes,
    aggregatedEntry, internalDepth, FSNode.name, FSNode.isDir, Entry.setLast]

theorem claim1_dir_bytes_invariant_witness :
    ((Entry.new wNode1 cfg0 1).1).entries = some [Entry.mk "a" 5 none true none]
    ∧ ((Entry.new wNode1 cfg0 1).1).bytes
        = (try_bytes_from_path wNode1 cfg0.usageFlag).1
          + (([Entry.mk "a" 5 none true none]).map Entry.bytes).sum :=
  ⟨by rw [wNode1_eval]; rfl,
   claim1_dir_bytes_invariant wNode1 cfg0 1 _ (by rw [wNode1_eval]; rfl)⟩

/-! ### C4: depth limiting never restricts size accounting -/

theorem get_bytes_list_sum (cs : List FSNode) (u : Bool) :
    (get_bytes_list cs u).1 = (cs.map (fun c => (get_bytes c u).1)).sum := by
  induction cs with
  | nil => simp [get_bytes_list]
  | cons c rest ih => simp [get_bytes_list, ih]

/-- C4: a directory sitting at the depth limit gets no materialized
children (`entries = none`), yet its `bytes` is the full recursive subtree
total computed by `get_bytes`: the directory's own size plus the full
recursive totals of all its children, with no filtering and no depth
limit.  Depth limiting only restricts display expansion. -/
theorem claim4_depth_limit_keeps_totals (dn : String) (l p m : Nat)
    (cs : List FSNode) (cfg : Config) (depth : Nat)
    (hflag : cfg.depthFlag = true) (hdep : depth ≤ 1) :
    ((Entry.new (.dir dn l p m none cs) cfg depth).1).entries = none
    ∧ ((Entry.new (.dir dn l p m none cs) cfg depth).1).bytes
        = (get_bytes (.dir dn l p m none cs) cfg.usageFlag).1
    ∧ (get_bytes (.dir dn l p m none cs) cfg.usageFlag).1
        = (if cfg.usageFlag then p else l)
          + (cs.map (fun c => (get_bytes c cfg.usageFlag).1)).sum := by
  have hd : internalDepth cfg depth = 0 := by
    simp [internalDepth, hflag]; omega
  have hgb : (get_bytes (.dir dn l p m none cs) cfg.usageFlag).1
      = (if cfg.usageFlag then p else l)
        + (cs.map (fun c => (get_bytes c cfg.usageFlag).1)).sum := by
    rw [get_bytes.eq_def]; dsimp only
    simp [try_bytes_from_path, get_bytes_list_sum]
  cases hE : Entry.new (.dir dn l p m none cs) cfg depth with
  | mk fst snd =>
    rw [Entry.new.eq_def] at hE; dsimp only at hE
    rw [hflag, hd] at hE
    norm_num at hE
    exact ⟨by rw [← hE.1]; simp, by rw [← hE.1]; simp, hgb⟩

/-- A configuration with an active depth limit of 1. -/
def cfgD : Config := ⟨1, true, false, false, false, true, false, 0, [], []⟩

/-- A subdirectory with self size 2 holding a 7-byte file. -/
def wSub4 : FSNode := .dir "sub" 2 2 0 none [.file "f" 7 7 0]

theorem claim4_depth_limit_keeps_totals_witness :
    cfgD.depthFlag = true ∧ (1 : Nat) ≤ 1
    ∧ (((Entry.new (.dir "d" 1 1 0 none [wSub4]) cfgD 1).1).entries = none
       ∧ ((Entry.new (.dir "d" 1 1 0 none [wSub4]) cfgD 1).1).bytes
           = (get_bytes (.dir "d" 1 1 0 none [wSub4]) cfgD.usageFlag).1
       ∧ (get_bytes (.dir "d" 1 1 0 none [wSub4]) cfgD.usageFlag).1
           = (if cfgD.usageFlag then 1 else 1)
             + ([wSub4].map (fun c => (get_bytes c cfgD.usageFlag).1)).sum) :=
  ⟨rfl, le_refl 1,
   claim4_depth_limit_keeps_totals "d" 1 1 0 [wSub4] cfgD 1 rfl (le_refl 1)⟩

/-! ### C2: the aggregation rule -/

/-- The child filters of `Entry::new` (src/lib.rs lines 278-280): a child
survives when it is not on the exclude list, is not hidden (when hidden
filtering is on), and is not a directory (when files-only mode is on). -/
def passesFilters (cfg : Config) (c : FSNode) : Bool :=
  !(cfg.exclude.contains c.name)
  && !(cfg.hiddnFlag && c.name.startsWith ".")
  && !(cfg.noDirFlg && c.isDir)

/-- Characterization of the child-processing loop under a positive
aggregation threshold: the visible children are exactly the surviving
children whose built entry is at or above the threshold, in directory
order, and the aggregate accumulator is exactly the byte sum of the
surviving children strictly below the threshold. -/
theorem buildChildren_spec (cfg : Config) (d : Nat) (ht : 0 < cfg.aggr)
    (cs : List FSNode) :
    (buildChildren cs cfg d).1
      = ((cs.filter (passesFilters cfg)).map (fun c => (Entry.new c cfg d).1)).filter
          (fun e => !decide (e.bytes < cfg.aggr))
    ∧ (buildChildren cs cfg d).2.1
      = ((((cs.filter (passesFilters cfg)).map (fun c => (Entry.new c cfg d).1)).filter
          (fun e => decide (e.bytes < cfg.aggr))).map Entry.bytes).sum := by
  induction cs with
  | nil => exact ⟨rfl, rfl⟩
  | cons c rest ih =>
    obtain ⟨ih1, ih2⟩ := ih
    rw [buildChildren.eq_def]; dsimp only
    by_cases h1 : c.name ∈ cfg.exclude
    · simp [h1, passesFilters, ih1, ih2]
    · by_cases h2 : (cfg.hiddnFlag && c.name.startsWith ".") = true
      · simp [h1, h2, passesFilters, ih1, ih2]
      · by_cases h3 : (cfg.noDirFlg && c.isDir) = true
        · simp [h1, h2, h3, passesFilters, ih1, ih2]
        · by_cases hb : (Entry.new c cfg d).1.bytes < cfg.aggr
          · simp [h1, h2, h3, hb, ht, passesFilters, ih1, ih2]
          · simp [h1, h2, h3, hb, ht, passesFilters, ih1, ih2]

/-- The children field produced for a readable directory whose descent is
allowed: the built children, sorted, with the aggregate appended when the
accumulator is positive, and the final element marked last. -/
theorem Entry.new_dir_entries (dn : String) (l p m : Nat) (cs : List FSNode)
    (cfg : Config) (depth : Nat)
    (hcond : (!cfg.depthFlag || decide (0 < internalDepth cfg depth)) = true) :
    ((Entry.new (.dir dn l p m none cs) cfg depth).1).entries
      = some (markLast (if 0 < (buildChildren cs cfg (internalDepth cfg depth)).2.1
          then sortByBytesDesc (buildChildren cs cfg (internalDepth cfg depth)).1
               ++ [aggregatedEntry (buildChildren cs cfg (internalDepth cfg depth)).2.1]
          else sortByBytesDesc (buildChildren cs cfg (internalDepth cfg depth)).1)) := by
  cases hE : Entry.new (.dir dn l p m none cs) cfg depth with
  | mk fst snd =>
    rw [Entry.new.eq_def] at hE; dsimp only at hE
    rw [if_pos hcond] at hE
    simp only [Prod.mk.injEq] at hE
    rw [← hE.1]
    simp

/-- C2: under a positive aggregation threshold, a surviving child is kept
visible iff its total bytes is at least the threshold (folded iff strictly
below it); the aggregate accumulator is exactly the byte sum of the folded
children, and it becomes the bytes of the synthetic aggregate entry, which
is appended exactly when the accumulator is positive; when no child is
folded, the children sequence is just the sorted visible children — no
aggregate entry is appended. -/
theorem claim2_aggregation_rule (cfg : Config) (depth : Nat) (cs : List FSNode)
    (dn : String) (l p m : Nat)
    (ht : 0 < cfg.aggr)
    (hdescend : cfg.depthFlag = false ∨ 0 < internalDepth cfg depth) :
    (buildChildren cs cfg (internalDepth cfg depth)).1
      = ((cs.filter (passesFilters cfg)).map
          (fun c => (Entry.new c cfg (internalDepth cfg depth)).1)).filter
          (fun e => !decide (e.bytes < cfg.aggr))
    ∧ (buildChildren cs cfg (internalDepth cfg depth)).2.1
      = ((((cs.filter (passesFilters cfg)).map
          (fun c => (Entry.new c cfg (internalDepth cfg depth)).1)).filter
          (fun e => decide (e.bytes < cfg.aggr))).map Entry.bytes).sum
    ∧ (0 < (buildChildren cs cfg (internalDepth cfg depth)).2.1 →
        ((Entry.new (.dir dn l p m none cs) cfg depth).1).entries
          = some (markLast (sortByBytesDesc (buildChildren cs cfg (internalDepth cfg depth)).1
                  ++ [aggregatedEntry (buildChildren cs cfg (internalDepth cfg depth)).2.1])))
    ∧ (((cs.filter (passesFilters cfg)).map
          (fun c => (Entry.new c cfg (internalDepth cfg depth)).1)).filter
          (fun e => decide (e.bytes < cfg.aggr)) = [] →
        ((Entry.new (.dir dn l p m none cs) cfg depth).1).entries
          = some (markLast (sortByBytesDesc (buildChildren cs cfg (internalDepth cfg depth)).1))) := by
  obtain ⟨hvec, hacc⟩ := buildChildren_spec cfg (internalDepth cfg depth) ht cs
  have hcond : (!cfg.depthFlag || decide (0 < internalDepth cfg depth)) = true := by
    rcases hdescend with h | h
    · simp [h]
    · simp [h]
  refine ⟨hvec, hacc, ?_, ?_⟩
  · intro hpos
    rw [Entry.new_dir_entries dn l p m cs cfg depth hcond, if_pos hpos]
  · intro hnil
    have hzero : (buildChildren cs cfg (internalDepth cfg depth)).2.1 = 0 := by
      rw [hacc, hnil]; rfl
    rw [Entry.new_dir_entries dn l p m cs cfg depth hcond, if_neg (by omega)]

/-- The aggregation configuration of the spec's end-to-end example:
threshold 100 bytes, everything else off. -/
def cfgA : Config := ⟨0, false, false, false, false, true, false, 100, [], []⟩

/-- Children of sizes 2048, 10 and 5 bytes. -/
def csA : List FSNode := [.file "big" 2048 2048 0, .file "s1" 10 10 0, .file "s2" 5 5 0]

theorem claim2_aggregation_rule_witness :
    0 < cfgA.aggr ∧ (cfgA.depthFlag = false ∨ 0 < internalDepth cfgA 1)
    ∧ ((buildChildren csA cfgA (internalDepth cfgA 1)).1
        = ((csA.filter (passesFilters cfgA)).map
            (fun c => (Entry.new c cfgA (internalDepth cfgA 1)).1)).filter
            (fun e => !decide (e.bytes < cfgA.aggr))
      ∧ (buildChildren csA cfgA (internalDepth cfgA 1)).2.1
        = ((((csA.filter (passesFilters cfgA)).map
            (fun c => (Entry.new c cfgA (internalDepth cfgA 1)).1)).filter
            (fun e => decide (e.bytes < cfgA.aggr))).map Entry.bytes).sum
      ∧ (0 < (buildChildren csA cfgA (internalDepth cfgA 1)).2.1 →
          ((Entry.new (.dir "d" 3 3 0 none csA) cfgA 1).1).entries
            = some (markLast (sortByBytesDesc (buildChildren csA cfgA (internalDepth cfgA 1)).1
                    ++ [aggregatedEntry (buildChildren csA cfgA (internalDepth cfgA 1)).2.1])))
      ∧ (((csA.filter (passesFilters cfgA)).map
            (fun c => (Entry.new c cfgA (internalDepth cfgA 1)).1)).filter
            (fun e => decide (e.bytes < cfgA.aggr)) = [] →
          ((Entry.new (.dir "d" 3 3 0 none csA) cfgA 1).1).entries
            = some (markLast (sortByBytesDesc (buildChildren csA cfgA (internalDepth cfgA 1)).1)))) :=
  ⟨by norm_num [cfgA], Or.inl rfl,
   claim2_aggregation_rule cfgA 1 csA "d" 3 3 0 (by norm_num [cfgA]) (Or.inl rfl)⟩

/-! ### Shared structure lemmas for the ordering and last-sibling claims -/

/-- Inversion: any children sequence produced by the builder is the
marked-last version of the sorted visible children of some directory
listing, with the aggregate appended when its accumulator is positive. -/
theorem Entry.new_entries_inv (node : FSNode) (cfg : Config) (depth : Nat)
    (es : List Entry) (h : ((Entry.new node cfg depth).1).entries = some es) :
    ∃ cs : List FSNode,
      es = markLast (if 0 < (buildChildren cs cfg (internalDepth cfg depth)).2.1
          then sortByBytesDesc (buildChildren cs cfg (internalDepth cfg depth)).1
               ++ [aggregatedEntry (buildChildren cs cfg (internalDepth cfg depth)).2.1]
          else sortByBytesDesc (buildChildren cs cfg (internalDepth cfg depth)).1) := by
  cases hE : Entry.new node cfg depth with
  | mk fst snd =>
    rw [hE] at h
    cases node <;> rw [Entry.new.eq_def] at hE <;> dsimp only at hE <;>
      (try split at hE) <;> (try split at hE) <;>
      simp only [Prod.mk.injEq] at hE <;>
      rw [← hE.1] at h <;> simp at h
    case dir.isTrue.h_2 =>
      exact ⟨_, h.symm⟩

/-- Every visible child produced by the child loop still has its `last`
flag down. -/
theorem buildChildren_last_false (cfg : Config) (d : Nat) :
    ∀ cs : List FSNode, ∀ e ∈ (buildChildren cs cfg d).1, e.last = false := by
  intro cs
  induction cs with
  | nil =>
    intro e he
    rw [buildChildren.eq_def] at he; simp at he
  | cons c rest ih =>
    intro e he
    rw [buildChildren.eq_def] at he; dsimp only at he
    split at he
    · exact ih e he
    · split at he
      · exact ih e he
      · split at he
        · exact ih e he
        · split at he
          · exact ih e he
          · rcases List.mem_cons.1 he with rfl | hmem
            · exact Entry.new_last c cfg d
            · exact ih e hmem

/-- With aggregation disabled the accumulator stays at zero. -/
theorem buildChildren_aggr_zero (cfg : Config) (d : Nat) (hz : cfg.aggr = 0) :
    ∀ cs : List FSNode, (buildChildren cs cfg d).2.1 = 0 := by
  intro cs
  induction cs with
  | nil => rw [buildChildren.eq_def]
  | cons c rest ih =>
    rw [buildChildren.eq_def]; dsimp only
    split
    · exact ih
    · split
      · exact ih
      · split
        · exact ih
        · split
          · next hfold => simp [hz] at hfold
          · exact ih

theorem markLast_eq_nil_iff (l : List Entry) : markLast l = [] ↔ l = [] := by
  rcases List.eq_nil_or_concat l with rfl | ⟨l', e, rfl⟩
  · simp
  · simp [markLast_concat]

/-- If every element of `l.dropLast` has the flag down, then after
`markLast` the sequence has the flag up exactly on its final element. -/
theorem markLast_one_last (l : List Entry) (hl : l ≠ [])
    (h : ∀ e ∈ l.dropLast, e.last = false) :
    (∃ e, (markLast l).getLast? = some e ∧ e.last = true)
    ∧ ∀ e ∈ (markLast l).dropLast, e.last = false := by
  rcases List.eq_nil_or_concat l with rfl | ⟨l', e0, rfl⟩
  · exact absurd rfl hl
  · rw [List.concat_eq_append] at h ⊢
    rw [markLast_concat]
    refine ⟨⟨e0.setLast true, ?_, by simp⟩, ?_⟩
    · simp [List.getLast?_concat]
    · intro e he
      rw [List.dropLast_concat] at he
      exact h e (by rw [List.dropLast_concat]; exact he)

/-- The children of the synthetic multi-root collection: one entry per
root, sorted descending, last one marked. -/
theorem run_collection_entries (roots : List FSNode) (cfg : Config)
    (h : ∀ r, roots ≠ [r]) :
    ((run roots cfg).1).entries
      = some (markLast (sortByBytesDesc
          (roots.map (fun r => (Entry.new r cfg (cfg.depth + 1)).1)))) := by
  cases roots with
  | nil => rw [run.eq_def]; rfl
  | cons a tl =>
    cases tl with
    | nil => exact absurd rfl (h a)
    | cons b tl2 =>
      rw [run.eq_def]; dsimp only
      simp only [List.map_map]
      rfl

/-! ### C5: exactly one last sibling, and it is final -/

/-- C5: in every non-empty children sequence produced by the builder — and
in the multi-root collection's children — the final element (after sorting
and any aggregate append) is the unique entry with the `last` flag set;
all earlier siblings have it unset. -/
theorem claim5_exactly_one_last :
    (∀ (node : FSNode) (cfg : Config) (depth : Nat) (es : List Entry),
        ((Entry.new node cfg depth).1).entries = some es → es ≠ [] →
        (∃ e, es.getLast? = some e ∧ e.last = true)
        ∧ ∀ e ∈ es.dropLast, e.last = false)
    ∧ (∀ (roots : List FSNode) (cfg : Config) (es : List Entry),
        (∀ r, roots ≠ [r]) → ((run roots cfg).1).entries = some es → es ≠ [] →
        (∃ e, es.getLast? = some e ∧ e.last = true)
        ∧ ∀ e ∈ es.dropLast, e.last = false) := by
  constructor
  · intro node cfg depth es h hne
    obtain ⟨cs, rfl⟩ := Entry.new_entries_inv node cfg depth es h
    apply markLast_one_last
    · exact fun hnil => hne (by rw [hnil]; rfl)
    · intro e he
      split at he
      · rw [List.dropLast_concat] at he
        exact buildChildren_last_false cfg _ cs e (mem_sortByBytesDesc.1 he)
      · have := (List.dropLast_sublist _).subset he
        exact buildChildren_last_false cfg _ cs e (mem_sortByBytesDesc.1 this)
  · intro roots cfg es hs h hne
    rw [run_collection_entries roots cfg hs] at h
    obtain rfl := Option.some.injEq .. ▸ h
    apply markLast_one_last
    · exact fun hnil => hne (by rw [hnil]; rfl)
    · intro e he
      have hmem := mem_sortByBytesDesc.1 ((List.dropLast_sublist _).subset he)
      obtain ⟨r, _, rfl⟩ := List.mem_map.1 hmem
      exact Entry.new_last r cfg (cfg.depth + 1)

theorem claim5_exactly_one_last_witness :
    ((Entry.new wNode1 cfg0 1).1).entries = some [Entry.mk "a" 5 none true none]
    ∧ [Entry.mk "a" 5 none true none] ≠ ([] : List Entry)
    ∧ ((∃ e, ([Entry.mk "a" 5 none true none]).getLast? = some e ∧ e.last = true)
       ∧ ∀ e ∈ ([Entry.mk "a" 5 none true none]).dropLast, e.last = false) :=
  ⟨by rw [wNode1_eval]; rfl, by simp,
   claim5_exactly_one_last.1 wNode1 cfg0 1 _ (by rw [wNode1_eval]; rfl) (by simp)⟩

/-- If a readable directory node got a children sequence at all, its
descent condition must have held. -/
theorem Entry.new_dir_some_cond (dn : String) (l p m : Nat) (cs : List FSNode)
    (cfg : Config) (depth : Nat) (es : List Entry)
    (h : ((Entry.new (.dir dn l p m none cs) cfg depth).1).entries = some es) :
    (!cfg.depthFlag || decide (0 < internalDepth cfg depth)) = true := by
  by_contra hc
  have hcondF : (!cfg.depthFlag || decide (0 < internalDepth cfg depth)) = false :=
    Bool.eq_false_iff.mpr hc
  cases hE : Entry.new (.dir dn l p m none cs) cfg depth with
  | mk fst snd =>
    rw [hE] at h
    rw [Entry.new.eq_def] at hE; dsimp only at hE
    rw [if_neg (by simp [hcondF])] at hE
    simp only [Prod.mk.injEq] at hE
    rw [← hE.1] at h
    simp at h

/-! ### C3: sibling ordering -/

/-- Raising the last flag of the final element does not disturb the
byte-descending chain. -/
theorem chain'_markLast_sort (v : List Entry) :
    List.Chain' byBytesDesc (markLast (sortByBytesDesc v)) := by
  have hmap : (markLast (sortByBytesDesc v)).map Entry.bytes
      = (sortByBytesDesc v).map Entry.bytes := markLast_map_bytes _
  have h1 : List.Chain' (fun x y : Nat => y ≤ x)
      ((sortByBytesDesc v).map Entry.bytes) :=
    (List.chain'_map Entry.bytes).2 (sortByBytesDesc_chain' v)
  have h2 : List.Chain' (fun x y : Nat => y ≤ x)
      ((markLast (sortByBytesDesc v)).map Entry.bytes) := hmap ▸ h1
  exact (List.chain'_map Entry.bytes).1 h2

/-- C3 (amended): every children sequence produced by the builder is in
descending (non-increasing, ties allowed) `bytes` order, except the
synthetic aggregate entry: whenever the sequence is not fully
non-increasing it decomposes as a non-increasing front followed by one
trailing aggregate entry of positive bytes; for a directory whose
aggregate accumulator is positive the aggregate entry with exactly that
byte sum is the final element regardless of its byte value; and the
multi-root collection's children are fully non-increasing. -/
theorem claim3_descending_order :
    (∀ (node : FSNode) (cfg : Config) (depth : Nat) (es : List Entry),
        ((Entry.new node cfg depth).1).entries = some es →
        List.Chain' byBytesDesc es
        ∨ ∃ (front : List Entry) (b : Nat), 0 < b
            ∧ es = front ++ [aggregatedEntry b]
            ∧ List.Chain' byBytesDesc front)
    ∧ (∀ (dn : String) (l p m : Nat) (cs : List FSNode) (cfg : Config)
        (depth : Nat) (es : List Entry),
        ((Entry.new (.dir dn l p m none cs) cfg depth).1).entries = some es →
        0 < (buildChildren cs cfg (internalDepth cfg depth)).2.1 →
        es.getLast? = some (aggregatedEntry
          (buildChildren cs cfg (internalDepth cfg depth)).2.1))
    ∧ (∀ (roots : List FSNode) (cfg : Config) (es : List Entry),
        (∀ r, roots ≠ [r]) → ((run roots cfg).1).entries = some es →
        List.Chain' byBytesDesc es) := by
  refine ⟨?_, ?_, ?_⟩
  · intro node cfg depth es h
    obtain ⟨cs, rfl⟩ := Entry.new_entries_inv node cfg depth es h
    by_cases hpos : 0 < (buildChildren cs cfg (internalDepth cfg depth)).2.1
    · right
      refine ⟨sortByBytesDesc (buildChildren cs cfg (internalDepth cfg depth)).1,
        (buildChildren cs cfg (internalDepth cfg depth)).2.1, hpos, ?_,
        sortByBytesDesc_chain' _⟩
      rw [if_pos hpos, markLast_concat]
      rfl
    · left
      rw [if_neg hpos]
      exact chain'_markLast_sort _
  · intro dn l p m cs cfg depth es h hpos
    have hcond := Entry.new_dir_some_cond dn l p m cs cfg depth es h
    rw [Entry.new_dir_entries dn l p m cs cfg depth hcond] at h
    injection h with h2
    subst h2
    rw [if_pos hpos, markLast_concat, List.getLast?_concat]
    rfl
  · intro roots cfg es hs h
    rw [run_collection_entries roots cfg hs] at h
    obtain rfl := Option.some.injEq .. ▸ h
    exact chain'_markLast_sort _

/-- Two 5-byte files under one directory: equal sibling sizes. -/
def node3 : FSNode := .dir "d" 7 7 0 none [.file "a" 5 5 0, .file "b" 5 5 0]

theorem node3_eval :
    Entry.new node3 cfg0 1
      = (Entry.mk "d" 17 none false
          (some [Entry.mk "a" 5 none false none, Entry.mk "b" 5 none true none]),
         []) := by
  simp [node3, cfg0, Entry.new, buildChildren, get_bytes, try_bytes_from_path,
    sortByBytesDesc, List.insertionSort, List.orderedInsert, byBytesDesc, markLast,
    sumBytes, aggregatedEntry, internalDepth, FSNode.name, FSNode.isDir, Entry.setLast]

/-- C3 counterexample: with two equal-sized (5-byte) children and no
aggregation, the produced sibling sequence has byte values `[5, 5]`, which
is not *strictly* descending (neither entry is the aggregate). -/
theorem claim3_descending_order_counterexample :
    ((Entry.new node3 cfg0 1).1).entries
      = some [Entry.mk "a" 5 none false none, Entry.mk "b" 5 none true none]
    ∧ ¬ List.Chain' (fun a b => b.bytes < a.bytes)
        [Entry.mk "a" 5 none false none, Entry.mk "b" 5 none true none]
    ∧ (Entry.mk "a" 5 none false none).name ≠ "<aggregated>"
    ∧ (Entry.mk "b" 5 none true none).name ≠ "<aggregated>" :=
  ⟨by rw [node3_eval]; rfl, by simp [List.chain'_cons], by simp, by simp⟩

theorem claim3_descending_order_witness :
    ((Entry.new wNode1 cfg0 1).1).entries = some [Entry.mk "a" 5 none true none]
    ∧ (List.Chain' byBytesDesc [Entry.mk "a" 5 none true none]
       ∨ ∃ (front : List Entry) (b : Nat), 0 < b
           ∧ [Entry.mk "a" 5 none true none] = front ++ [aggregatedEntry b]
           ∧ List.Chain' byBytesDesc front) :=
  ⟨by rw [wNode1_eval]; rfl,
   claim3_descending_order.1 wNode1 cfg0 1 _ (by rw [wNode1_eval]; rfl)⟩

/-! ### C6: size formatting -/

/-- C6 evidence: the byte branch of `fmt_size_str` renders the `u64` count
with *no* decimal places (Rust ignores a precision given for an integer),
so `format(512, false)` is `"512 B"`, not the claimed `"512.00 B"`; the
floating-point branches do carry two decimals, e.g. `"2.00 KiB"`. -/
theorem claim6_fmt_size_str_divergence :
    fmt_size_str 512 false = "512 B"
    ∧ fmt_size_str 2048 false = "2.00 KiB"
    ∧ fmt_size_str 0 true = "0 B"
    ∧ fmt_size_str 512 false ≠ "512.00 B" := by
  refine ⟨rfl, by decide, rfl, by decide⟩

/-! ### C7: grapheme-aware truncation -/

theorem truncAux_sublist (w : Nat) :
    ∀ (cs : List Cluster) (i : Nat), List.Sublist (truncAux w i cs) cs := by
  intro cs
  induction cs with
  | nil => intro i; simp [truncAux]
  | cons c rest ih =>
    intro i
    rw [truncAux]
    split
    · exact (ih (i + c.width)).cons₂ c
    · exact (ih i).cons c

theorem truncAux_width (w : Nat) :
    ∀ (cs : List Cluster) (i : Nat), i ≤ w →
      i + clustersWidth (truncAux w i cs) ≤ w := by
  intro cs
  induction cs with
  | nil => intro i hi; simpa [truncAux, clustersWidth] using hi
  | cons c rest ih =>
    intro i hi
    rw [truncAux]
    split
    · next hfit =>
      have := ih (i + c.width) hfit
      simp only [clustersWidth, List.map_cons, List.sum_cons] at this ⊢
      omega
    · exact ih i hi

/-- C7 (amended): the truncation loop keeps whole grapheme clusters only —
the result is a subsequence of the original cluster sequence, in order —
and its total display width never exceeds the allotted width.  The kept
clusters are however a greedy fit, not necessarily a prefix: a skipped
wide cluster does not stop the accumulation of later narrow clusters. -/
theorem claim7_truncation (clusters : List Cluster) (nameWidth : Nat) :
    List.Sublist (truncate_name clusters nameWidth) clusters
    ∧ clustersWidth (truncate_name clusters nameWidth) ≤ nameWidth :=
  ⟨truncAux_sublist nameWidth clusters 0,
   by simpa using truncAux_width nameWidth clusters 0 (Nat.zero_le _)⟩

/-- The name `a字b` (width-1, width-2, width-1 clusters). -/
def cexClusters : List Cluster := [⟨"a", 1⟩, ⟨"字", 2⟩, ⟨"b", 1⟩]

/-- C7 counterexample: truncating `a字b` to width 2 keeps `a` and `b` —
the loop skips the wide cluster but keeps accumulating — so the result is
not a prefix of the original cluster sequence. -/
theorem claim7_truncation_counterexample :
    truncate_name cexClusters 2 = [⟨"a", 1⟩, ⟨"b", 1⟩]
    ∧ ¬ (truncate_name cexClusters 2 <+: cexClusters) := by
  have h1 : truncate_name cexClusters 2 = [⟨"a", 1⟩, ⟨"b", 1⟩] := rfl
  refine ⟨h1, ?_⟩
  rw [h1]
  rintro ⟨t, ht⟩
  simp [cexClusters] at ht

/-! ### C8: symlink color classes -/

/-- C8 (amended): a symlink with a readable, existing target gets the
`ln` class whenever the color table contains one; a link whose target does
not exist (or whose link record cannot be read, `lok && tgt = false`) gets
the `or` class whenever present.  But when `ln` is absent from the table,
an existing-target link falls through to the `or` class as well. -/
theorem claim8_symlink_colors (name : String) (sl sp : Nat) (lok tgt : Bool)
    (dict : List (String × String)) (c : String) :
    (lok = true → tgt = true → lookupColor dict "ln" = some c →
        colorFromPath (.symlink name sl sp lok tgt) dict = some c)
    ∧ ((lok && tgt) = false → lookupColor dict "or" = some c →
        colorFromPath (.symlink name sl sp lok tgt) dict = some c) := by
  constructor
  · rintro rfl rfl hln
    simp [colorFromPath, hln]
  · intro hfalse hor
    simp [colorFromPath, hfalse, hor]

/-- A color table with an orphan class but no symlink class. -/
def dict8 : List (String × String) := [("or", "05;37")]

/-- C8 counterexample: with `ln` absent and `or` present, a symlink whose
target exists is assigned the *orphan* color — contradicting `a link with
an existing target is never assigned the orphan class`. -/
theorem claim8_symlink_colors_counterexample :
    lookupColor dict8 "ln" = none
    ∧ lookupColor dict8 "or" = some "05;37"
    ∧ colorFromPath (.symlink "l" 1 1 true true) dict8 = some "05;37" :=
  ⟨rfl, rfl, rfl⟩

/-- A color table with both the symlink and the orphan class. -/
def dict8w : List (String × String) := [("ln", "01;36"), ("or", "05;37")]

theorem claim8_symlink_colors_witness :
    colorFromPath (.symlink "l" 0 0 true true) dict8w = some "01;36"
    ∧ colorFromPath (.symlink "o" 0 0 true false) dict8w = some "05;37" :=
  ⟨(claim8_symlink_colors "l" 0 0 true true dict8w "01;36").1 rfl rfl rfl,
   (claim8_symlink_colors "o" 0 0 true false dict8w "05;37").2 rfl rfl⟩

/-! ### C9: soft per-node error handling -/

/-- The child loop distributes over list concatenation: processing a
directory listing never aborts at a failed node — the remainder is built
exactly as it would have been on its own. -/
theorem buildChildren_append (cfg : Config) (d : Nat) (cs2 : List FSNode) :
    ∀ cs1 : List FSNode,
      buildChildren (cs1 ++ cs2) cfg d
        = ((buildChildren cs1 cfg d).1 ++ (buildChildren cs2 cfg d).1,
           (buildChildren cs1 cfg d).2.1 + (buildChildren cs2 cfg d).2.1,
           (buildChildren cs1 cfg d).2.2 ++ (buildChildren cs2 cfg d).2.2) := by
  intro cs1
  induction cs1 with
  | nil =>
    have h0 : buildChildren ([] : List FSNode) cfg d = ([], 0, []) := rfl
    rw [List.nil_append, h0]
    simp
  | cons c rest ih =>
    rw [List.cons_append, buildChildren.eq_def]
    conv_rhs => rw [buildChildren.eq_def]
    dsimp only
    split
    · exact ih
    · split
      · exact ih
      · split
        · exact ih
        · split
          · rw [ih]; simp [Nat.add_assoc]
          · rw [ih]; simp

/-- C9: a node whose metadata read fails contributes size 0 and no
children; the failure is reported as `Couldn't read <name> (<error-kind>)`
on standard error and nowhere else; and the child loop is compositional
over the listing, so the build of the surrounding tree continues
unchanged — no error is ever propagated out of the build. -/
theorem claim9_metadata_error_soft (n k : String) (cfg : Config) (depth : Nat)
    (cs1 cs2 : List FSNode) :
    ((Entry.new (.badMeta n k) cfg depth).1).bytes = 0
    ∧ ((Entry.new (.badMeta n k) cfg depth).1).entries = none
    ∧ (Entry.new (.badMeta n k) cfg depth).2
        = ["Couldn't read " ++ n ++ " (" ++ k ++ ")"]
    ∧ (buildChildren (cs1 ++ [FSNode.badMeta n k] ++ cs2) cfg depth).2.2
        = (buildChildren cs1 cfg depth).2.2
          ++ (buildChildren [FSNode.badMeta n k] cfg depth).2.2
          ++ (buildChildren cs2 cfg depth).2.2
    ∧ (buildChildren (cs1 ++ [FSNode.badMeta n k] ++ cs2) cfg depth).1
        = (buildChildren cs1 cfg depth).1
          ++ (buildChildren [FSNode.badMeta n k] cfg depth).1
          ++ (buildChildren cs2 cfg depth).1 := by
  refine ⟨rfl, rfl, rfl, ?_, ?_⟩
  · rw [buildChildren_append cfg depth cs2 (cs1 ++ [FSNode.badMeta n k]),
       buildChildren_append cfg depth [FSNode.badMeta n k] cs1]
  · rw [buildChildren_append cfg depth cs2 (cs1 ++ [FSNode.badMeta n k]),
       buildChildren_append cfg depth [FSNode.badMeta n k] cs1]

/-! ### C10: bar-chart chains are never too short, divisions are guarded -/

/-- Every chain passed to `fmt_bar` from within the sibling loop extends
the ancestor chain by at least one element. -/
theorem barCalls_len :
    ∀ (es : List Entry) (oc : Nat) (pv : List Nat) (tw : Nat) (c : List Nat),
      c ∈ printEntriesBarCalls es oc pv tw → pv.length + 1 ≤ c.length
  | [], _, _, _, _, h => by simp [printEntriesBarCalls] at h
  | Entry.mk nm b col lst sub :: rest, oc, pv, tw, c, h => by
    rw [printEntriesBarCalls.eq_def] at h
    dsimp only at h
    rcases List.mem_append.1 h with h1 | h2
    · split at h1
      · rcases List.mem_cons.1 h1 with rfl | h3
        · simp
        · cases sub with
          | none => simp at h3
          | some es2 =>
            have := barCalls_len es2 (oc + 1) (pv ++ [b]) tw c h3
            simp only [List.length_append, List.length_cons, List.length_nil] at this
            omega
      · simp at h1
    · exact barCalls_len rest oc pv tw c h2

/-- `fmt_bar` never hits its panicking unwrap on a chain of length at
least two. -/
theorem fmt_bar_isSome (bytes : List Nat) (h : 2 ≤ bytes.length)
    (maxB w : Nat) (a : Bool) : (fmt_bar bytes maxB w a).isSome = true := by
  match bytes, h with
  | b0 :: b1 :: rest, _ => rfl

/-- C10: every `fmt_bar` call reachable from rendering a built tree
receives an ancestor chain of length at least 2 (root total plus one push
per level), so the initial chain extraction and the final two-element
percentage never hit an empty chain, and both divisions inside `fmt_bar`
are guarded: a zero total or a zero parent yields 0 instead of a division
error. -/
theorem claim10_bar_chains (root : Entry) (tnw maxB w : Nat) (a : Bool)
    (chain : List Nat) (x y : Nat)
    (h : chain ∈ printBarCalls root tnw) :
    2 ≤ chain.length
    ∧ (fmt_bar chain maxB w a).isSome = true
    ∧ guardedDiv x y 0 = 0
    ∧ barPercent x 0 = 0 := by
  have hlen : 2 ≤ chain.length := by
    cases root with
    | mk nm b col lst sub =>
      cases sub with
      | none => simp [printBarCalls] at h
      | some es =>
        have := barCalls_len es 0 [b] tnw chain h
        simpa using this
  exact ⟨hlen, fmt_bar_isSome chain hlen maxB w a, rfl, rfl⟩

/-- A root of 10 bytes with one 4-byte child. -/
def rootW : Entry := Entry.mk "r" 10 none false (some [Entry.mk "c" 4 none true none])

theorem claim10_bar_chains_witness :
    [10, 4] ∈ printBarCalls rootW 25
    ∧ (2 ≤ ([10, 4] : List Nat).length
       ∧ (fmt_bar [10, 4] 4 40 true).isSome = true
       ∧ guardedDiv 0 0 0 = 0
       ∧ barPercent 0 0 = 0) :=
  ⟨by simp [rootW, printBarCalls, printEntriesBarCalls],
   claim10_bar_chains rootW 25 4 40 true [10, 4] 0 0
     (by simp [rootW, printBarCalls, printEntriesBarCalls])⟩

end Dutree
